import Mathlib

/-!
# Verification development for `video/ping-test/pingtest.go`

A shallow embedding of the websocket ping probe: the inbound listener
goroutine, the `select` loop of `main`, and the text payloads they exchange.

Conventions of the embedding:
* a Go `string` / `[]byte` is a list of bytes, each byte a natural number;
* the Unix timestamp (`int64`) is an `Int`;
* every call into the environment (dial, read, write, the scheduler's choice
  in `select`, the clock) takes its result from an explicit input record;
* the effects of a goroutine are collected in a trace, in program order.
-/

namespace PingTest

/-! ## Byte strings and the library functions used by the program -/

/-- A Go byte string: the bytes in order. -/
abbrev Bytes := List Nat

/-- The bytes of an ASCII literal of the source text. -/
def lit (s : String) : Bytes := s.toList.map Char.toNat

/-- Go `strings.HasPrefix`:
`len(s) >= len(prefix) && s[:len(prefix)] == prefix`. -/
def HasPrefix (s pre : Bytes) : Bool :=
  decide (s.length ≥ pre.length) && (s.take pre.length == pre)

/-- The digit loop of Go `fmt` for base 10 (`fmtInteger`): digits are written
from the end of the buffer towards its start while `u >= 10`, then the last
digit. `fuel` bounds the number of rounds; `fuel = u` is always enough. -/
def fmtDigits : Nat → Nat → Bytes → Bytes
  | 0, u, buf => (48 + u) :: buf
  | fuel + 1, u, buf =>
    if u ≥ 10 then fmtDigits fuel (u / 10) ((48 + (u - (u / 10) * 10)) :: buf)
    else (48 + u) :: buf

/-- The verb `%d` applied to a signed integer: an optional minus sign, then
the decimal digits of the magnitude. -/
def fmtInt (a : Int) : Bytes :=
  if a < 0 then 45 :: fmtDigits a.natAbs a.natAbs [] else fmtDigits a.natAbs a.natAbs []

/-- Go `fmt.Sprintf`, for the formats of this program: ordinary bytes are
copied, `%d` consumes the next integer operand (or reports a missing one).
No other verb occurs in the program, and no call passes more operands than
its format has verbs, so neither is treated. -/
def Sprintf : Bytes → List Int → Bytes
  | [], _ => []
  | 37 :: 100 :: rest, [] => lit "%!d(MISSING)" ++ Sprintf rest []
  | 37 :: 100 :: rest, a :: args => fmtInt a ++ Sprintf rest args
  | c :: rest, args => c :: Sprintf rest args

/-- Message type `websocket.TextMessage`. -/
def TextMessage : Nat := 1

/-- Message type `websocket.CloseMessage`. -/
def CloseMessage : Nat := 8

/-- Close code `websocket.CloseNormalClosure`. -/
def CloseNormalClosure : Nat := 1000

/-- Close code `websocket.CloseNoStatusReceived`. -/
def CloseNoStatusReceived : Nat := 1005

/-- The function `websocket.FormatCloseMessage`: the close code as two
big-endian bytes, then the reason text; empty for `CloseNoStatusReceived`. -/
def FormatCloseMessage (closeCode : Nat) (text : Bytes) : Bytes :=
  if closeCode = CloseNoStatusReceived then []
  else ((closeCode % 65536) / 256) :: (closeCode % 256) :: text

/-- Go `time.Second`, in nanoseconds. -/
def Second : Nat := 1000000000

/-- The number a string of decimal digits denotes, read from the left. -/
def decimalValue (digits : Bytes) : Nat :=
  digits.foldl (fun acc b => 10 * acc + (b - 48)) 0

/-! ## Payloads -/

/-- The payload of line 40: `fmt.Sprintf` of the authenticate literal, with
no operands. -/
def authenticateMessage : Bytes :=
  Sprintf (lit "[\"authenticate\",\x7b\"client_id\":\"d1d2a2cb-2bdd-4f93-9159-8915f67214bc\"\x7d]") []

/-- The payload of line 72: `fmt.Sprintf("[\"ping\", %d]", now)`. -/
def pingMessage (now : Int) : Bytes :=
  Sprintf (lit "[\"ping\", %d]") [now]

/-- The payload of line 82:
`websocket.FormatCloseMessage(websocket.CloseNormalClosure, "")`. -/
def closeMessage : Bytes :=
  FormatCloseMessage CloseNormalClosure (lit "")

/-! ## The listener goroutine (lines 48-62) -/

/-- The two classes of an inbound payload. -/
inductive Class where
  | Pong
  | Unclassified
  deriving DecidableEq, Repr

/-- The test of line 56. -/
def classify (message : Bytes) : Class :=
  if HasPrefix message (lit "[\"pong\"") then Class.Pong else Class.Unclassified

/-- One result of `c.ReadMessage()`: a message with its type, or an error
(given by its text). -/
inductive ReadResult where
  | ok (messageType : Nat) (message : Bytes)
  | err (e : Bytes)
  deriving DecidableEq, Repr

/-- What the listener emits: bytes on standard output (`fmt.Print`) or one
log entry (`log.Printf`, `log.Println`), without the date and time prefix
and the final newline. -/
inductive Output where
  | stdout (s : Bytes)
  | log (entry : Bytes)
  deriving DecidableEq, Repr

/-- The state of the listener after a sequence of read results. -/
structure ListenerRun where
  /-- Everything emitted, in order. -/
  out : List Output
  /-- How many times `close(done)` ran. -/
  doneCloses : Nat
  /-- Whether the goroutine has returned. -/
  exited : Bool
  /-- The read results that were never asked for. -/
  unread : List ReadResult
  deriving DecidableEq, Repr

/-- The body of the `for` loop at lines 51-60 for one successful read. -/
def onMessage (message : Bytes) : Output :=
  match classify message with
  | Class.Pong => Output.stdout (lit ".")
  | Class.Unclassified => Output.log (lit "recv: " ++ message)

/-- The listener goroutine, run on the results its reads return. When the
results are used up the goroutine is blocked in `ReadMessage`. -/
def listener : List ReadResult → ListenerRun
  | [] => { out := [], doneCloses := 0, exited := false, unread := [] }
  | ReadResult.err e :: rest =>
    { out := [Output.log (lit "read: " ++ e)], doneCloses := 1, exited := true, unread := rest }
  | ReadResult.ok _ message :: rest =>
    let r := listener rest
    { r with out := onMessage message :: r.out }

/-! ## The main goroutine (lines 25-94) -/

/-- The three cases of the `select` at line 68, in source order. -/
inductive Branch where
  | done
  | tick
  | interrupt
  deriving DecidableEq, Repr

/-- How the inner `select` at line 87 ended. -/
inductive WaitOutcome where
  | done
  | timeout
  deriving DecidableEq, Repr

/-- One effect of the main goroutine. A write carries the message type, the
data and the error `WriteMessage` returned (`none` for `nil`). -/
inductive Event where
  | log (entry : Bytes)
  | write (messageType : Nat) (data : Bytes) (err : Option Bytes)
  | go
  | newTicker (period : Nat)
  | wait (outcome : WaitOutcome) (elapsed : Nat)
  | tickerStop
  | connClose
  | osExit (code : Nat)
  deriving DecidableEq, Repr

/-- Which channels of the outer `select` can be received from: `done` is
closed, a tick is buffered in `ticker.C`, a signal is buffered in
`interrupt`. -/
structure Pending where
  done : Bool
  tick : Bool
  interrupt : Bool
  deriving DecidableEq, Repr

/-- What the environment supplies at one scheduling opportunity of the main
loop: what happened since the previous one (the listener closed `done`, the
ticker fired, a signal arrived), the scheduler's random number for `select`,
the clock, the result of the write if one is made, and, for the bounded wait,
after how many nanoseconds `done` is closed (`none`: never) and the
scheduler's random number for the inner `select`. -/
structure Iter where
  listenerExited : Bool
  tickFired : Bool
  interruptArrived : Bool
  rand : Nat
  now : Int
  writeErr : Option Bytes
  doneAfter : Option Nat
  waitRand : Nat
  deriving DecidableEq, Repr

/-- The cases of the outer `select` that can proceed, in source order. -/
def readyCases (p : Pending) : List Branch :=
  (if p.done then [Branch.done] else []) ++
  (if p.tick then [Branch.tick] else []) ++
  (if p.interrupt then [Branch.interrupt] else [])

/-- Go `select`: when one or more cases can proceed, one of them is chosen by
a uniform pseudo-random selection; when none can, the statement blocks. -/
def selectCase (p : Pending) (rand : Nat) : Option Branch :=
  match readyCases p with
  | [] => none
  | b :: bs => (b :: bs).get? (rand % (b :: bs).length)

/-- The channels after the arrivals of one scheduling opportunity. A closed
`done` stays closed; `ticker.C` and `interrupt` both have a buffer of one. -/
def arrive (p : Pending) (it : Iter) : Pending :=
  { done := p.done || it.listenerExited,
    tick := p.tick || it.tickFired,
    interrupt := p.interrupt || it.interruptArrived }

/-- The inner `select` at lines 87-90: `done` against `time.After(time.Second)`. -/
def boundedWait (doneClosed : Bool) (doneAfter : Option Nat) (rand : Nat) : WaitOutcome × Nat :=
  if doneClosed then (WaitOutcome.done, 0)
  else
    match doneAfter with
    | none => (WaitOutcome.timeout, Second)
    | some d =>
      if d < Second then (WaitOutcome.done, d)
      else if d = Second ∧ rand % 2 = 0 then (WaitOutcome.done, d)
      else (WaitOutcome.timeout, Second)

/-- The result of one pass through the body of the `for` at line 67. -/
structure StepResult where
  /-- The case that ran; `none` when the `select` is still blocked. -/
  branch : Option Branch
  /-- The effects of the pass, in order. -/
  events : List Event
  /-- The channels for the next pass; `none` when the pass ended in `return`. -/
  next : Option Pending
  deriving DecidableEq, Repr

/-- One pass through the body of the `for` loop (lines 68-92). -/
def iteration (p : Pending) (it : Iter) : StepResult :=
  let q := arrive p it
  match selectCase q it.rand with
  | none => { branch := none, events := [], next := some q }
  | some Branch.done => { branch := some Branch.done, events := [], next := none }
  | some Branch.tick =>
    let w := Event.write TextMessage (pingMessage it.now) it.writeErr
    match it.writeErr with
    | some e =>
      { branch := some Branch.tick, events := [w, Event.log (lit "write: " ++ e)], next := none }
    | none =>
      { branch := some Branch.tick, events := [w], next := some { q with tick := false } }
  | some Branch.interrupt =>
    let w := Event.write CloseMessage closeMessage it.writeErr
    match it.writeErr with
    | some e =>
      { branch := some Branch.interrupt,
        events := [Event.log (lit "interrupt"), w, Event.log (lit "write close: " ++ e)],
        next := none }
    | none =>
      let r := boundedWait q.done it.doneAfter it.waitRand
      { branch := some Branch.interrupt,
        events := [Event.log (lit "interrupt"), w, Event.wait r.1 r.2],
        next := none }

/-- Whether a goroutine is still running or how it ended. -/
inductive Status where
  | running
  | returned
  | exited (code : Nat)
  deriving DecidableEq, Repr

/-- A run of the main goroutine: its effects and its status at the end of
the supplied inputs. -/
structure Run where
  trace : List Event
  status : Status
  deriving DecidableEq, Repr

/-- The `for` loop at lines 67-93 over a sequence of scheduling opportunities.
When the inputs are used up the loop is blocked in `select`. -/
def loop (p : Pending) : List Iter → Run
  | [] => { trace := [], status := Status.running }
  | it :: rest =>
    let r := iteration p it
    match r.next with
    | none => { trace := r.events, status := Status.returned }
    | some q =>
      let tail := loop q rest
      { trace := r.events ++ tail.trace, status := tail.status }

/-- Everything `main` takes from outside: the `-addr` flag, the results of
the dial and of the authenticate write, and the scheduling opportunities of
the loop. -/
structure Env where
  addr : Bytes
  dialErr : Option Bytes
  authErr : Option Bytes
  iters : List Iter
  deriving DecidableEq, Repr

/-- The deferred calls that run when `main` returns from the loop, last
deferred first. -/
def deferred (s : Status) : List Event :=
  match s with
  | Status.returned => [Event.tickerStop, Event.connClose]
  | _ => []

/-- The function `main` (lines 25-94). -/
def main (env : Env) : Run :=
  let connecting := Event.log (lit "connecting to " ++ env.addr)
  match env.dialErr with
  | some e =>
    { trace := [connecting, Event.log (lit "dial:" ++ e), Event.osExit 1],
      status := Status.exited 1 }
  | none =>
    let w := Event.write TextMessage authenticateMessage env.authErr
    match env.authErr with
    | some e =>
      { trace := [connecting, w, Event.log (lit "write: " ++ e), Event.connClose],
        status := Status.returned }
    | none =>
      let r := loop { done := false, tick := false, interrupt := false } env.iters
      { trace := [connecting, w, Event.go, Event.newTicker (5 * Second)] ++ r.trace
          ++ deferred r.status,
        status := r.status }

/-- The outbound writes of a trace, in order: message type and data. -/
def writes : List Event → List (Nat × Bytes)
  | [] => []
  | Event.write messageType data _ :: rest => (messageType, data) :: writes rest
  | _ :: rest => writes rest

/-- A simulated ticker of the given period over a window of whole seconds:
one scheduling opportunity at the end of each second, at which the ticker has
fired exactly when the elapsed time is a multiple of the period; no signal,
no read error and no write error. `start` is the Unix time at which the loop
is entered. -/
def tickerSchedule (period : Nat) (start : Int) (rand : Nat → Nat) (seconds : Nat) : List Iter :=
  (List.range seconds).map fun k =>
    { listenerExited := false,
      tickFired := decide (((k + 1) * Second) % period = 0),
      interruptArrived := false,
      rand := rand k,
      now := start + (k + 1 : Nat),
      writeErr := none,
      doneAfter := none,
      waitRand := 0 }

/-! ## Sample inputs -/

/-- A run with two ticks, a failed read racing the second tick, and nothing
else: the scheduler's number selects the timer case at the second
opportunity, where `done` and the tick are both ready. -/
def raceIters : List Iter :=
  [ { listenerExited := false, tickFired := true, interruptArrived := false, rand := 0,
      now := 1700000005, writeErr := none, doneAfter := none, waitRand := 0 },
    { listenerExited := true, tickFired := true, interruptArrived := false, rand := 1,
      now := 1700000010, writeErr := none, doneAfter := none, waitRand := 0 },
    { listenerExited := false, tickFired := false, interruptArrived := false, rand := 0,
      now := 1700000011, writeErr := none, doneAfter := none, waitRand := 0 } ]

/-! # Theorems -/

/-! ## Library facts -/

theorem HasPrefix_iff (s pre : Bytes) : HasPrefix s pre = true ↔ pre <+: s := by
  unfold HasPrefix
  rw [List.prefix_iff_eq_take]
  constructor
  · intro h
    simp only [Bool.and_eq_true, decide_eq_true_eq, beq_iff_eq] at h
    exact h.2.symm
  · intro h
    have hl : pre.length ≤ s.length := by
      have := congrArg List.length h
      simp at this
      omega
    simp only [Bool.and_eq_true, decide_eq_true_eq, beq_iff_eq]
    exact ⟨hl, h.symm⟩

theorem digitChar_toNat (d : Nat) (h : d < 10) : (Nat.digitChar d).toNat = 48 + d := by
  interval_cases d <;> rfl

theorem fmtDigits_eq_toDigitsCore (fuel : Nat) :
    ∀ (u : Nat) (ds : List Char), u ≤ fuel →
      fmtDigits fuel u (ds.map Char.toNat)
        = (Nat.toDigitsCore 10 (fuel + 1) u ds).map Char.toNat := by
  induction fuel with
  | zero =>
    intro u ds h
    have hu : u = 0 := by omega
    subst hu
    simp [fmtDigits, Nat.toDigitsCore]
    rfl
  | succ k ih =>
    intro u ds h
    rw [fmtDigits, Nat.toDigitsCore]
    by_cases h10 : u ≥ 10
    · have hne : u / 10 ≠ 0 := by omega
      have hle : u / 10 ≤ k := by omega
      have hd : u - u / 10 * 10 = u % 10 := by omega
      simp only [h10, if_true, hne, if_false, hd]
      rw [← ih (u / 10) (Nat.digitChar (u % 10) :: ds) hle]
      simp [digitChar_toNat (u % 10) (Nat.mod_lt _ (by decide))]
    · have hz : u / 10 = 0 := by omega
      have hm : u % 10 = u := by omega
      simp only [h10, if_false, hz, if_true, hm]
      simp [digitChar_toNat u (by omega)]

theorem fmtDigits_eq_repr (n : Nat) : fmtDigits n n [] = lit (Nat.repr n) := by
  have := fmtDigits_eq_toDigitsCore n n [] (Nat.le_refl n)
  simpa [lit, Nat.repr, Nat.toDigits, List.asString] using this

theorem fmtDigits_append (fuel : Nat) :
    ∀ (u : Nat) (buf : Bytes), fmtDigits fuel u buf = fmtDigits fuel u [] ++ buf := by
  induction fuel with
  | zero => intro u buf; simp [fmtDigits]
  | succ k ih =>
    intro u buf
    rw [fmtDigits, fmtDigits]
    by_cases h10 : u ≥ 10
    · simp only [h10, if_true]
      rw [ih (u / 10) (_ :: buf), ih (u / 10) [_]]
      simp
    · simp [h10]

theorem decimalValue_fmtDigits (fuel : Nat) :
    ∀ u : Nat, u ≤ fuel → decimalValue (fmtDigits fuel u []) = u := by
  induction fuel with
  | zero =>
    intro u h
    have hu : u = 0 := by omega
    subst hu
    simp [fmtDigits, decimalValue]
  | succ k ih =>
    intro u h
    rw [fmtDigits]
    by_cases h10 : u ≥ 10
    · simp only [h10, if_true]
      rw [fmtDigits_append]
      have hle : u / 10 ≤ k := by omega
      have := ih (u / 10) hle
      unfold decimalValue at this ⊢
      rw [List.foldl_append, this]
      simp
      omega
    · simp [h10, decimalValue]

theorem lit_ping_format :
    lit "[\"ping\", %d]" = [91, 34, 112, 105, 110, 103, 34, 44, 32, 37, 100, 93] := by
  decide

theorem pingMessage_eq (now : Int) :
    pingMessage now = [91, 34, 112, 105, 110, 103, 34, 44, 32] ++ fmtInt now ++ [93] := by
  rw [pingMessage, lit_ping_format]
  simp [Sprintf]

theorem authenticateMessage_head : authenticateMessage.take 3 = [91, 34, 97] := by
  decide

theorem pingMessage_ne_authenticateMessage (now : Int) :
    pingMessage now ≠ authenticateMessage := by
  intro h
  have h3 := congrArg (List.take 3) h
  rw [authenticateMessage_head, pingMessage_eq] at h3
  simp at h3

theorem classify_eq_pong_iff (m : Bytes) :
    classify m = Class.Pong ↔ lit "[\"pong\"" <+: m := by
  unfold classify
  rw [← HasPrefix_iff]
  by_cases h : HasPrefix m (lit "[\"pong\"") = true <;> simp [h]

/-! ## Payloads and classification -/

/-- C1. An inbound payload is classified `Pong` exactly when it starts with
the seven bytes of `["pong"`, and `Unclassified` exactly when it does not;
what follows the prefix never changes the class. -/
theorem classify_pong_iff :
    (∀ m : Bytes, (classify m = Class.Pong ↔ lit "[\"pong\"" <+: m)
        ∧ (classify m = Class.Unclassified ↔ ¬ lit "[\"pong\"" <+: m))
      ∧ lit "[\"pong\"" = [91, 34, 112, 111, 110, 103, 34]
      ∧ (∀ rest₁ rest₂ : Bytes,
          classify (lit "[\"pong\"" ++ rest₁) = classify (lit "[\"pong\"" ++ rest₂)) := by
  have key := classify_eq_pong_iff
  refine ⟨fun m => ⟨key m, ?_⟩, by decide, ?_⟩
  · rw [← key m]
    cases classify m <;> simp
  · intro r₁ r₂
    rw [(key _).2 (List.prefix_append _ _), (key _).2 (List.prefix_append _ _)]

/-- C2. For a non-negative timestamp `n` the ping payload is the text
`["ping", ` (one space after the comma), then the decimal representation of
`n`, then `]`; the digits read back as `n`. -/
theorem pingMessage_ofNat (n : Nat) :
    pingMessage (Int.ofNat n) = lit "[\"ping\", " ++ lit (Nat.repr n) ++ lit "]"
      ∧ decimalValue (lit (Nat.repr n)) = n := by
  have hpre : lit "[\"ping\", " = [91, 34, 112, 105, 110, 103, 34, 44, 32] := by decide
  have hpost : lit "]" = [93] := by decide
  constructor
  · rw [pingMessage_eq, hpre, hpost, ← fmtDigits_eq_repr]
    simp [fmtInt]
  · rw [← fmtDigits_eq_repr]
    exact decimalValue_fmtDigits n n (Nat.le_refl n)

/-- C3, as the claim states it, fails: the authenticate payload is not the
text with a space after the comma and after the colon. -/
theorem authenticateMessage_ne_spaced :
    authenticateMessage
      ≠ lit "[\"authenticate\", \x7b\"client_id\": \"d1d2a2cb-2bdd-4f93-9159-8915f67214bc\"\x7d]" := by
  decide

/-- C3, amended. The authenticate payload is the tag, a comma, and the object
whose key `client_id` is followed by a colon and the quoted UUID, with no
space anywhere; and whatever the configured address, it is the data of the
first write of a run whose dial succeeded. -/
theorem authenticateMessage_exact :
    authenticateMessage
        = lit "[\"authenticate\"" ++ lit "," ++ lit "\x7b\"client_id\"" ++ lit ":"
            ++ lit "\"" ++ lit "d1d2a2cb-2bdd-4f93-9159-8915f67214bc" ++ lit "\"" ++ lit "\x7d]"
      ∧ 32 ∉ authenticateMessage
      ∧ ∀ (addr : Bytes) (authErr : Option Bytes) (iters : List Iter),
          (writes (main { addr := addr, dialErr := none, authErr := authErr,
                          iters := iters }).trace).head?
            = some (TextMessage, authenticateMessage) := by
  refine ⟨by decide, by decide, ?_⟩
  intro addr authErr iters
  cases authErr <;> simp [main, writes]

/-! ## The listener -/

/-- C5. On any sequence of successful reads followed by a read error the
listener emits, in order, one `.` for each payload starting with `["pong"` and
one log entry `recv: ` plus the unchanged payload for each other one, then
logs the error, closes `done` once, returns, and reads nothing further; while
every read succeeds it neither returns nor closes `done`. -/
theorem listener_run (msgs : List (Nat × Bytes)) (e : Bytes) (rest : List ReadResult) :
    listener (msgs.map (fun m => ReadResult.ok m.1 m.2) ++ ReadResult.err e :: rest)
        = { out := msgs.map (fun m => onMessage m.2) ++ [Output.log (lit "read: " ++ e)],
            doneCloses := 1, exited := true, unread := rest }
      ∧ listener (msgs.map (fun m => ReadResult.ok m.1 m.2))
        = { out := msgs.map (fun m => onMessage m.2),
            doneCloses := 0, exited := false, unread := [] }
      ∧ (∀ m : Bytes, (lit "[\"pong\"" <+: m ∧ onMessage m = Output.stdout [46])
          ∨ (¬ lit "[\"pong\"" <+: m ∧ onMessage m = Output.log (lit "recv: " ++ m))) := by
  refine ⟨?_, ?_, ?_⟩
  · induction msgs with
    | nil => simp [listener]
    | cons m ms ih => simp [listener, ih]
  · induction msgs with
    | nil => simp [listener]
    | cons m ms ih => simp [listener, ih]
  · intro m
    have h := classify_eq_pong_iff m
    unfold onMessage
    cases hc : classify m with
    | Pong => left; exact ⟨h.1 hc, rfl⟩
    | Unclassified => right; exact ⟨fun hp => by simp [h.2 hp] at hc, rfl⟩

/-! ## Facts about traces -/

theorem writes_append (a b : List Event) : writes (a ++ b) = writes a ++ writes b := by
  induction a with
  | nil => rfl
  | cons ev a ih => cases ev <;> simp [writes, ih]

theorem mem_readyCases (q : Pending) (b : Branch) :
    b ∈ readyCases q ↔
      (b = Branch.done ∧ q.done = true) ∨ (b = Branch.tick ∧ q.tick = true)
        ∨ (b = Branch.interrupt ∧ q.interrupt = true) := by
  unfold readyCases
  cases hd : q.done <;> cases ht : q.tick <;> cases hi : q.interrupt <;> cases b <;> simp

theorem selectCase_eq_none (q : Pending) (rand : Nat) :
    selectCase q rand = none ↔ readyCases q = [] := by
  unfold selectCase
  cases h : readyCases q with
  | nil => simp
  | cons b bs =>
    simp only [List.get?_eq_none, List.length_cons, not_le, false_iff, reduceCtorEq, iff_false]
    exact Nat.mod_lt _ (Nat.succ_pos _)

theorem selectCase_mem (q : Pending) (rand : Nat) (b : Branch)
    (h : selectCase q rand = some b) : b ∈ readyCases q := by
  unfold selectCase at h
  cases hr : readyCases q with
  | nil => rw [hr] at h; simp at h
  | cons c cs =>
    rw [hr] at h
    exact List.get?_mem h

/-- The shapes a pass through the loop body can take. -/
theorem iteration_cases (p : Pending) (it : Iter) :
    (iteration p it = { branch := none, events := [], next := some (arrive p it) }
        ∧ readyCases (arrive p it) = [])
    ∨ (iteration p it = { branch := some Branch.done, events := [], next := none }
        ∧ (arrive p it).done = true)
    ∨ (iteration p it
          = { branch := some Branch.tick,
              events := [Event.write TextMessage (pingMessage it.now) none],
              next := some { arrive p it with tick := false } }
        ∧ it.writeErr = none ∧ (arrive p it).tick = true)
    ∨ (∃ e, iteration p it
          = { branch := some Branch.tick,
              events := [Event.write TextMessage (pingMessage it.now) (some e),
                         Event.log (lit "write: " ++ e)],
              next := none }
        ∧ it.writeErr = some e ∧ (arrive p it).tick = true)
    ∨ (iteration p it
          = { branch := some Branch.interrupt,
              events := [Event.log (lit "interrupt"),
                         Event.write CloseMessage closeMessage none,
                         Event.wait (boundedWait (arrive p it).done it.doneAfter it.waitRand).1
                           (boundedWait (arrive p it).done it.doneAfter it.waitRand).2],
              next := none }
        ∧ it.writeErr = none ∧ (arrive p it).interrupt = true)
    ∨ (∃ e, iteration p it
          = { branch := some Branch.interrupt,
              events := [Event.log (lit "interrupt"),
                         Event.write CloseMessage closeMessage (some e),
                         Event.log (lit "write close: " ++ e)],
              next := none }
        ∧ it.writeErr = some e ∧ (arrive p it).interrupt = true) := by
  cases hs : selectCase (arrive p it) it.rand with
  | none =>
    left
    exact ⟨by simp [iteration, hs], (selectCase_eq_none _ _).1 hs⟩
  | some b =>
    have hm := (mem_readyCases _ _).1 (selectCase_mem _ _ _ hs)
    cases b with
    | done =>
      have hd : (arrive p it).done = true := by simpa using hm
      right; left
      exact ⟨by simp [iteration, hs], hd⟩
    | tick =>
      have ht : (arrive p it).tick = true := by simpa using hm
      cases he : it.writeErr with
      | none => right; right; left; simp [iteration, hs, he, ht]
      | some e => right; right; right; left; exact ⟨e, by simp [iteration, hs, he, ht]⟩
    | interrupt =>
      have hi : (arrive p it).interrupt = true := by simpa using hm
      cases he : it.writeErr with
      | none => right; right; right; right; left; simp [iteration, hs, he, hi]
      | some e => right; right; right; right; right; exact ⟨e, by simp [iteration, hs, he, hi]⟩

theorem loop_cons (p : Pending) (it : Iter) (rest : List Iter) :
    loop p (it :: rest)
      = match (iteration p it).next with
        | none => { trace := (iteration p it).events, status := Status.returned }
        | some q =>
          { trace := (iteration p it).events ++ (loop q rest).trace,
            status := (loop q rest).status } := rfl

theorem append_eq_append_cons {α : Type} (a b pre post : List α) (x : α)
    (h : a ++ b = pre ++ x :: post) :
    (∃ m, a = pre ++ x :: m ∧ post = m ++ b) ∨ (∃ m, pre = a ++ m ∧ b = m ++ x :: post) := by
  rcases List.append_eq_append_iff.1 h with ⟨m, h1, h2⟩ | ⟨m, h1, h2⟩
  · exact Or.inr ⟨m, h1, h2⟩
  · cases m with
    | nil =>
      refine Or.inr ⟨[], ?_, ?_⟩
      · simpa using h1.symm
      · simpa using h2.symm
    | cons y m =>
      simp only [List.cons_append, List.cons.injEq] at h2
      obtain ⟨hxy, hpost⟩ := h2
      subst hxy
      exact Or.inl ⟨m, h1, hpost⟩

/-- Every write of the loop is a ping or the close frame. -/
theorem loop_writes_kind (its : List Iter) :
    ∀ (p : Pending) (w : Nat × Bytes), w ∈ writes (loop p its).trace →
      (∃ now, w = (TextMessage, pingMessage now)) ∨ w = (CloseMessage, closeMessage) := by
  induction its with
  | nil => intro p w h; simp [loop, writes] at h
  | cons it rest ih =>
    intro p w h
    rw [loop_cons] at h
    rcases iteration_cases p it with ⟨hi, -⟩ | ⟨hi, -⟩ | ⟨hi, -⟩ | ⟨e, hi, -⟩ | ⟨hi, -⟩ | ⟨e, hi, -⟩
    · rw [hi] at h
      exact ih _ w (by simpa using h)
    · rw [hi] at h
      simp [writes] at h
    · rw [hi] at h
      simp only [List.singleton_append, writes, List.mem_cons] at h
      rcases h with h | h
      · exact Or.inl ⟨it.now, h⟩
      · exact ih _ w h
    · rw [hi] at h
      simp only [writes, List.mem_cons, List.mem_nil_iff, or_false] at h
      exact Or.inl ⟨it.now, h⟩
    · rw [hi] at h
      simp only [writes, List.mem_cons, List.mem_nil_iff, or_false] at h
      exact Or.inr h
    · rw [hi] at h
      simp only [writes, List.mem_cons, List.mem_nil_iff, or_false] at h
      exact Or.inr h

/-- In the loop, nothing is written after a close frame or after a failed
write, and the loop has returned. -/
theorem loop_after_terminal (its : List Iter) :
    ∀ (p : Pending) (pre post : List Event) (mt : Nat) (d : Bytes) (e : Option Bytes),
      (loop p its).trace = pre ++ Event.write mt d e :: post →
      (mt = CloseMessage ∨ e ≠ none) →
      writes post = [] ∧ (loop p its).status = Status.returned ∧ Event.go ∉ post
        ∧ (e ≠ none → ∀ o t, Event.wait o t ∉ post) := by
  induction its with
  | nil => intro p pre post mt d e h; simp [loop] at h
  | cons it rest ih =>
    intro p pre post mt d e h hterm
    rw [loop_cons] at h ⊢
    rcases iteration_cases p it with ⟨hi, -⟩ | ⟨hi, -⟩ | ⟨hi, -⟩ | ⟨e', hi, -⟩ | ⟨hi, -⟩ | ⟨e', hi, -⟩
    · rw [hi] at h ⊢
      exact ih _ pre post mt d e (by simpa using h) hterm
    · rw [hi] at h
      simp at h
    · rw [hi] at h ⊢
      simp only [List.singleton_append] at h
      cases pre with
      | nil =>
        simp only [List.nil_append, List.cons.injEq, Event.write.injEq] at h
        obtain ⟨⟨hmt, -, he⟩, -⟩ := h
        rcases hterm with hc | hc
        · rw [← hmt] at hc; exact absurd hc (by decide)
        · exact absurd he.symm hc
      | cons a pre' =>
        simp only [List.cons_append, List.cons.injEq] at h
        exact ih _ pre' post mt d e h.2 hterm
    · rw [hi] at h ⊢
      rcases pre with _ | ⟨a, _ | ⟨b, pre⟩⟩ <;> simp at h
      obtain ⟨-, hpost⟩ := h
      subst hpost
      simp [writes]
    · rw [hi] at h ⊢
      rcases pre with _ | ⟨a, _ | ⟨b, _ | ⟨c, pre⟩⟩⟩ <;> simp at h
      obtain ⟨-, ⟨-, -, he⟩, hpost⟩ := h
      subst hpost
      subst he
      simp [writes]
    · rw [hi] at h ⊢
      rcases pre with _ | ⟨a, _ | ⟨b, _ | ⟨c, pre⟩⟩⟩ <;> simp at h
      obtain ⟨-, -, hpost⟩ := h
      subst hpost
      simp [writes]

theorem writes_deferred (s : Status) : writes (deferred s) = [] := by
  cases s <;> rfl

theorem not_mem_deferred (s : Status) (ev : Event)
    (h1 : ev ≠ Event.tickerStop) (h2 : ev ≠ Event.connClose) : ev ∉ deferred s := by
  cases s <;> simp [deferred, h1, h2]

theorem main_trace_ok (env : Env) (h1 : env.dialErr = none) (h2 : env.authErr = none) :
    (main env).trace
        = [Event.log (lit "connecting to " ++ env.addr),
           Event.write TextMessage authenticateMessage none,
           Event.go, Event.newTicker (5 * Second)]
          ++ (loop { done := false, tick := false, interrupt := false } env.iters).trace
          ++ deferred (loop { done := false, tick := false, interrupt := false } env.iters).status
      ∧ (main env).status
        = (loop { done := false, tick := false, interrupt := false } env.iters).status := by
  simp [main, h1, h2]

/-- In a run of `main`, nothing is written after a close frame or after a
failed write, and `main` has returned. -/
theorem main_after_terminal (env : Env) (pre post : List Event) (mt : Nat) (d : Bytes)
    (e : Option Bytes) (h : (main env).trace = pre ++ Event.write mt d e :: post)
    (hterm : mt = CloseMessage ∨ e ≠ none) :
    writes post = [] ∧ (main env).status = Status.returned ∧ Event.go ∉ post
      ∧ (e ≠ none → ∀ o t, Event.wait o t ∉ post) := by
  cases hd : env.dialErr with
  | some de =>
    simp only [main, hd] at h
    rcases pre with _ | ⟨a, _ | ⟨b, _ | ⟨c, pre⟩⟩⟩ <;> simp at h
  | none =>
    cases ha : env.authErr with
    | some ae =>
      simp only [main, hd, ha] at h ⊢
      rcases pre with _ | ⟨a, _ | ⟨b, _ | ⟨c, _ | ⟨c', pre⟩⟩⟩⟩ <;> simp at h
      obtain ⟨-, -, hpost⟩ := h
      subst hpost
      simp [writes]
    | none =>
      obtain ⟨ht, hs⟩ := main_trace_ok env hd ha
      rw [ht] at h
      rw [hs]
      rcases pre with _ | ⟨a, _ | ⟨b, _ | ⟨c, _ | ⟨c', pre⟩⟩⟩⟩
      · simp at h
      · simp only [List.nil_append, List.cons_append, List.cons.injEq, Event.write.injEq] at h
        obtain ⟨-, ⟨hmt, -, he⟩, -⟩ := h
        rcases hterm with hc | hc
        · rw [← hmt] at hc; exact absurd hc (by decide)
        · exact absurd he.symm hc
      · simp at h
      · simp at h
      · simp only [List.cons_append, List.nil_append, List.cons.injEq] at h
        obtain ⟨-, -, -, -, h⟩ := h
        rcases append_eq_append_cons _ _ _ _ _ h with ⟨m, hm, hpost⟩ | ⟨m, -, hm⟩
        · obtain ⟨hw, hst, hgo, hwait⟩ := loop_after_terminal _ _ _ _ _ _ _ hm hterm
          subst hpost
          refine ⟨?_, hst, ?_, ?_⟩
          · rw [writes_append, hw, writes_deferred]; rfl
          · simp only [List.mem_append, not_or]
            exact ⟨hgo, not_mem_deferred _ _ (by simp) (by simp)⟩
          · intro he o t
            simp only [List.mem_append, not_or]
            exact ⟨hwait he o t, not_mem_deferred _ _ (by simp) (by simp)⟩
        · have hmem : Event.write mt d e ∈ deferred
              (loop { done := false, tick := false, interrupt := false } env.iters).status := by
            rw [hm]; simp
          exact absurd hmem (not_mem_deferred _ _ (by simp) (by simp))

/-! ## The main goroutine -/

/-- C4. In every run in which the connection was established, the
authenticate message is the first outbound write and occurs exactly once: no
ping and no close frame precedes it and no later write repeats it. -/
theorem authenticate_once_first (env : Env) (h : env.dialErr = none) :
    ∃ rest, writes (main env).trace = (TextMessage, authenticateMessage) :: rest
      ∧ (TextMessage, authenticateMessage) ∉ rest
      ∧ (writes (main env).trace).count (TextMessage, authenticateMessage) = 1 := by
  have key : ∃ rest, writes (main env).trace = (TextMessage, authenticateMessage) :: rest
      ∧ (TextMessage, authenticateMessage) ∉ rest := by
    cases ha : env.authErr with
    | some ae => exact ⟨[], by simp [main, h, ha, writes], by simp⟩
    | none =>
      obtain ⟨ht, -⟩ := main_trace_ok env h ha
      refine ⟨writes (loop { done := false, tick := false, interrupt := false } env.iters).trace,
        ?_, ?_⟩
      · rw [ht, writes_append, writes_deferred]
        simp [writes, writes_append]
      · intro hmem
        rcases loop_writes_kind _ _ _ hmem with ⟨now, hw⟩ | hw
        · exact pingMessage_ne_authenticateMessage now (congrArg Prod.snd hw).symm
        · exact absurd (congrArg Prod.fst hw) (by decide)
  obtain ⟨rest, h1, h2⟩ := key
  refine ⟨rest, h1, h2, ?_⟩
  rw [h1, List.count_cons_self, List.count_eq_zero_of_not_mem h2]

/-- One instance of `authenticate_once_first`: the run of `raceIters`. -/
theorem authenticate_once_first_witness :
    ∃ rest, writes (main { addr := lit "wss://example.org/ws", dialErr := none, authErr := none,
                            iters := raceIters }).trace
          = (TextMessage, authenticateMessage) :: rest
      ∧ (TextMessage, authenticateMessage) ∉ rest
      ∧ (writes (main { addr := lit "wss://example.org/ws", dialErr := none, authErr := none,
                        iters := raceIters }).trace).count (TextMessage, authenticateMessage)
          = 1 :=
  authenticate_once_first _ rfl

/-- C6, as the claim states it, fails: the listener has returned on a read
error and closed `done`, a tick is buffered at the same scheduling
opportunity, `select` takes the timer case, and a second ping is written
after `done` fired; the loop returns only at the next opportunity. -/
theorem ping_written_after_done :
    (listener [ReadResult.err (lit "EOF")]).exited = true
      ∧ (listener [ReadResult.err (lit "EOF")]).doneCloses = 1
      ∧ (raceIters.map fun it => it.listenerExited) = [false, true, false]
      ∧ (iteration { done := true, tick := true, interrupt := false }
            { listenerExited := false, tickFired := false, interruptArrived := false, rand := 1,
              now := 1700000010, writeErr := none, doneAfter := none, waitRand := 0 }).events
          = [Event.write TextMessage (pingMessage 1700000010) none]
      ∧ writes (main { addr := lit "wss://example.org/ws", dialErr := none, authErr := none,
                       iters := raceIters }).trace
          = [(TextMessage, authenticateMessage), (TextMessage, pingMessage 1700000005),
             (TextMessage, pingMessage 1700000010)]
      ∧ (main { addr := lit "wss://example.org/ws", dialErr := none, authErr := none,
                iters := raceIters }).status = Status.returned := by
  decide

/-- C6, amended. On any successful reads followed by a read error the
listener returns and closes `done` once. At a scheduling opportunity of the
main loop at which `done` is closed, whether it was closed before or is
closed at this very opportunity, and at which no tick is buffered and none
has fired, the pass ends the loop: the loop returns there, its trace is that
of this one pass, and no ping is written. The same holds for `main` when this
is its first opportunity. -/
theorem done_without_tick_returns (p : Pending) (it : Iter) (rest : List Iter)
    (hd : p.done = true ∨ it.listenerExited = true) (ht : p.tick = false)
    (hf : it.tickFired = false) :
    (loop p (it :: rest)).status = Status.returned
      ∧ (∀ now, (TextMessage, pingMessage now) ∉ writes (loop p (it :: rest)).trace)
      ∧ (iteration p it).next = none
      ∧ (loop p (it :: rest)).trace = (iteration p it).events
      ∧ ((iteration p it).branch = some Branch.done
          ∨ (iteration p it).branch = some Branch.interrupt)
      ∧ (∀ (msgs : List (Nat × Bytes)) (e : Bytes) (unread : List ReadResult),
          (listener (msgs.map (fun m => ReadResult.ok m.1 m.2)
              ++ ReadResult.err e :: unread)).exited = true
            ∧ (listener (msgs.map (fun m => ReadResult.ok m.1 m.2)
              ++ ReadResult.err e :: unread)).doneCloses = 1)
      ∧ (∀ (addr : Bytes),
          p = { done := false, tick := false, interrupt := false } →
          (main { addr := addr, dialErr := none, authErr := none,
                  iters := it :: rest }).status = Status.returned
            ∧ ∀ now, (TextMessage, pingMessage now)
                ∉ writes (main { addr := addr, dialErr := none, authErr := none,
                                 iters := it :: rest }).trace) := by
  have hdone : (arrive p it).done = true := by
    rcases hd with hd | hd <;> simp [arrive, hd]
  have htick : (arrive p it).tick = false := by simp [arrive, ht, hf]
  have key : (loop p (it :: rest)).status = Status.returned
      ∧ (∀ now, (TextMessage, pingMessage now) ∉ writes (loop p (it :: rest)).trace)
      ∧ (iteration p it).next = none
      ∧ (loop p (it :: rest)).trace = (iteration p it).events
      ∧ ((iteration p it).branch = some Branch.done
          ∨ (iteration p it).branch = some Branch.interrupt) := by
    rw [loop_cons]
    rcases iteration_cases p it with ⟨-, hr⟩ | ⟨hi, -⟩ | ⟨-, -, h⟩ | ⟨e, -, -, h⟩ | ⟨hi, -⟩
        | ⟨e, hi, -⟩
    · have : Branch.done ∈ readyCases (arrive p it) :=
        (mem_readyCases _ _).2 (Or.inl ⟨rfl, hdone⟩)
      rw [hr] at this
      simp at this
    · rw [hi]; simp [writes]
    · rw [htick] at h; simp at h
    · rw [htick] at h; simp at h
    · rw [hi]; simp [writes, TextMessage, CloseMessage]
    · rw [hi]; simp [writes, TextMessage, CloseMessage]
  obtain ⟨k1, k2, k3, k4, k5⟩ := key
  refine ⟨k1, k2, k3, k4, k5, ?_, ?_⟩
  · intro msgs e unread
    induction msgs with
    | nil => simp [listener]
    | cons m ms ih => simpa [listener] using ih
  · intro addr hp
    subst hp
    obtain ⟨htr, hst⟩ := main_trace_ok
      { addr := addr, dialErr := none, authErr := none, iters := it :: rest } rfl rfl
    refine ⟨by rw [hst]; exact k1, ?_⟩
    intro now hmem
    rw [htr, writes_append, writes_append, writes_deferred] at hmem
    simp only [writes, List.append_nil, List.singleton_append, List.mem_cons] at hmem
    rcases hmem with hmem | hmem
    · exact pingMessage_ne_authenticateMessage now (congrArg Prod.snd hmem)
    · exact k2 now hmem

/-- One instance of `done_without_tick_returns`: the loop is entered with
nothing buffered, the listener closes `done` before the first scheduling
opportunity and no tick has fired; `done` is the only ready case, the loop
returns at once with an empty trace, and the later ticks of `raceIters` are
never served. -/
theorem done_without_tick_returns_witness :
    (loop { done := false, tick := false, interrupt := false }
        ({ listenerExited := true, tickFired := false, interruptArrived := false, rand := 1,
           now := 1700000003, writeErr := none, doneAfter := none, waitRand := 0 }
          :: raceIters)).status = Status.returned
      ∧ (loop { done := false, tick := false, interrupt := false }
        ({ listenerExited := true, tickFired := false, interruptArrived := false, rand := 1,
           now := 1700000003, writeErr := none, doneAfter := none, waitRand := 0 }
          :: raceIters)).trace = []
      ∧ writes (main { addr := lit "wss://example.org/ws", dialErr := none, authErr := none,
                       iters :=
          { listenerExited := true, tickFired := false, interruptArrived := false, rand := 1,
            now := 1700000003, writeErr := none, doneAfter := none, waitRand := 0 }
            :: raceIters }).trace = [(TextMessage, authenticateMessage)] :=
  ⟨(done_without_tick_returns _ _ raceIters (Or.inr rfl) rfl rfl).1,
   by decide, by decide⟩

/-- C7. A pass that takes the interrupt case writes exactly one close frame,
whose data is the normal-closure code 1000 in two big-endian bytes and no
reason byte, and ends the loop whatever the bounded wait gives; in a run of
`main` nothing is written after a close frame and `main` has returned; the
bounded wait never lasts more than one second, it ends by the timeout when
`done` is never closed and by `done` when `done` is closed sooner. -/
theorem interrupt_writes_one_close_and_returns :
    (∀ (p : Pending) (it : Iter), (iteration p it).branch = some Branch.interrupt →
        writes (iteration p it).events = [(CloseMessage, closeMessage)]
          ∧ (iteration p it).next = none
          ∧ (it.writeErr = none →
              (iteration p it).events.getLast?
                = some (Event.wait (boundedWait (arrive p it).done it.doneAfter it.waitRand).1
                          (boundedWait (arrive p it).done it.doneAfter it.waitRand).2)))
      ∧ closeMessage = [CloseNormalClosure / 256, CloseNormalClosure % 256]
      ∧ CloseNormalClosure = 1000
      ∧ (∀ (env : Env) (pre post : List Event) (d : Bytes) (e : Option Bytes),
          (main env).trace = pre ++ Event.write CloseMessage d e :: post →
            writes post = [] ∧ (main env).status = Status.returned)
      ∧ (∀ (doneClosed : Bool) (doneAfter : Option Nat) (rand : Nat),
          (boundedWait doneClosed doneAfter rand).2 ≤ Second)
      ∧ (∀ rand : Nat, boundedWait false none rand = (WaitOutcome.timeout, Second))
      ∧ (∀ (d rand : Nat), d < Second →
          boundedWait false (some d) rand = (WaitOutcome.done, d)) := by
  refine ⟨?_, by decide, rfl, ?_, ?_, ?_, ?_⟩
  · intro p it hb
    rcases iteration_cases p it with ⟨hi, -⟩ | ⟨hi, -⟩ | ⟨hi, -⟩ | ⟨e, hi, -⟩ | ⟨hi, he, -⟩
        | ⟨e, hi, he, -⟩
    · rw [hi] at hb; simp at hb
    · rw [hi] at hb; simp at hb
    · rw [hi] at hb; simp at hb
    · rw [hi] at hb; simp at hb
    · rw [hi]; simp [writes]
    · rw [hi]; simp [writes, he]
  · intro env pre post d e h
    obtain ⟨hw, hs, -, -⟩ := main_after_terminal env pre post CloseMessage d e h (Or.inl rfl)
    exact ⟨hw, hs⟩
  · intro dc da r
    unfold boundedWait
    cases dc
    · cases da with
      | none => simp
      | some d =>
        by_cases h1 : d < Second
        · simp [h1]; omega
        · by_cases h2 : d = Second ∧ r % 2 = 0
          · simp [h1, h2]
          · simp [h1, h2]
    · simp
  · intro r; rfl
  · intro d r hd
    simp [boundedWait, hd]

/-- One instance of `interrupt_writes_one_close_and_returns`: a signal is the
only ready case and the endpoint never answers. -/
theorem interrupt_writes_one_close_and_returns_witness :
    writes (iteration { done := false, tick := false, interrupt := false }
        { listenerExited := false, tickFired := false, interruptArrived := true, rand := 0,
          now := 1700000003, writeErr := none, doneAfter := none, waitRand := 0 }).events
        = [(CloseMessage, closeMessage)]
      ∧ (iteration { done := false, tick := false, interrupt := false }
        { listenerExited := false, tickFired := false, interruptArrived := true, rand := 0,
          now := 1700000003, writeErr := none, doneAfter := none, waitRand := 0 }).next = none
      ∧ (iteration { done := false, tick := false, interrupt := false }
        { listenerExited := false, tickFired := false, interruptArrived := true, rand := 0,
          now := 1700000003, writeErr := none, doneAfter := none, waitRand := 0 }).events.getLast?
        = some (Event.wait WaitOutcome.timeout Second) :=
  ⟨(interrupt_writes_one_close_and_returns.1 _ _ (by decide)).1,
   (interrupt_writes_one_close_and_returns.1 _ _ (by decide)).2.1,
   (interrupt_writes_one_close_and_returns.1 _ _ (by decide)).2.2 rfl⟩

/-- C8. A pass through the loop body runs one case of the `select`, none
only while no case is ready, and writes at most one outbound message: none in
the done case, one ping in the timer case, one close frame in the interrupt
case. -/
theorem iteration_one_branch_one_write (p : Pending) (it : Iter) :
    (writes (iteration p it).events).length ≤ 1
      ∧ ((iteration p it).branch = none ↔ readyCases (arrive p it) = [])
      ∧ (((iteration p it).branch = none ∧ (iteration p it).events = [])
        ∨ ((iteration p it).branch = some Branch.done ∧ writes (iteration p it).events = [])
        ∨ ((iteration p it).branch = some Branch.tick
            ∧ writes (iteration p it).events = [(TextMessage, pingMessage it.now)])
        ∨ ((iteration p it).branch = some Branch.interrupt
            ∧ writes (iteration p it).events = [(CloseMessage, closeMessage)])) := by
  rcases iteration_cases p it with ⟨hi, hr⟩ | ⟨hi, hr⟩ | ⟨hi, -, hr⟩ | ⟨e, hi, -, hr⟩
      | ⟨hi, -, hr⟩ | ⟨e, hi, -, hr⟩
  · rw [hi]; simp [writes, hr]
  · have : readyCases (arrive p it) ≠ [] :=
      List.ne_nil_of_mem ((mem_readyCases _ Branch.done).2 (Or.inl ⟨rfl, hr⟩))
    rw [hi]; simp [writes, this]
  · have : readyCases (arrive p it) ≠ [] :=
      List.ne_nil_of_mem ((mem_readyCases _ Branch.tick).2 (Or.inr (Or.inl ⟨rfl, hr⟩)))
    rw [hi]; simp [writes, this]
  · have : readyCases (arrive p it) ≠ [] :=
      List.ne_nil_of_mem ((mem_readyCases _ Branch.tick).2 (Or.inr (Or.inl ⟨rfl, hr⟩)))
    rw [hi]; simp [writes, this]
  · have : readyCases (arrive p it) ≠ [] :=
      List.ne_nil_of_mem ((mem_readyCases _ Branch.interrupt).2 (Or.inr (Or.inr ⟨rfl, hr⟩)))
    rw [hi]; simp [writes, this]
  · have : readyCases (arrive p it) ≠ [] :=
      List.ne_nil_of_mem ((mem_readyCases _ Branch.interrupt).2 (Or.inr (Or.inr ⟨rfl, hr⟩)))
    rw [hi]; simp [writes, this]

/-- C9. With a ticker of period five seconds, no signal, no read error and
no write error, the run over the first twelve seconds writes, after the
authenticate message, exactly two pings, stamped with the times of the ticks
at 5 s and at 10 s, and nothing else; the loop is still running, and the
ticker `main` creates has that period. -/
theorem two_pings_in_twelve_seconds (addr : Bytes) (start : Int) (rand : Nat → Nat) :
    writes (main { addr := addr, dialErr := none, authErr := none,
                   iters := tickerSchedule (5 * Second) start rand 12 }).trace
        = [(TextMessage, authenticateMessage), (TextMessage, pingMessage (start + 5)),
           (TextMessage, pingMessage (start + 10))]
      ∧ (main { addr := addr, dialErr := none, authErr := none,
                iters := tickerSchedule (5 * Second) start rand 12 }).status = Status.running
      ∧ Event.newTicker (5 * Second)
          ∈ (main { addr := addr, dialErr := none, authErr := none,
                    iters := tickerSchedule (5 * Second) start rand 12 }).trace
      ∧ (tickerSchedule (5 * Second) start rand 12).map (fun it => it.tickFired)
          = [false, false, false, false, true, false, false, false, false, true, false, false] := by
  simp [main, tickerSchedule, List.range, List.range.loop, Second, loop, iteration, arrive,
    selectCase, readyCases, writes, deferred, Nat.mod_one]

/-- C10. In a run of `main` a failed write is the last outbound write: after
it nothing is written, the listener is not started, no bounded wait is made,
and `main` has returned. A failed authenticate write leaves the log entry and
the deferred close of the connection only; a failed ping write and a failed
close-frame write each end the loop with a log entry only. -/
theorem failed_write_is_last :
    (∀ (env : Env) (pre post : List Event) (mt : Nat) (d e : Bytes),
        (main env).trace = pre ++ Event.write mt d (some e) :: post →
          writes post = [] ∧ Event.go ∉ post ∧ (∀ o t, Event.wait o t ∉ post)
            ∧ (main env).status = Status.returned)
      ∧ (∀ (env : Env) (e : Bytes), env.dialErr = none → env.authErr = some e →
          (main env).trace
              = [Event.log (lit "connecting to " ++ env.addr),
                 Event.write TextMessage authenticateMessage (some e),
                 Event.log (lit "write: " ++ e), Event.connClose]
            ∧ (main env).status = Status.returned)
      ∧ (∀ (p : Pending) (it : Iter) (e : Bytes),
          (iteration p it).branch = some Branch.tick → it.writeErr = some e →
            (iteration p it).events
                = [Event.write TextMessage (pingMessage it.now) (some e),
                   Event.log (lit "write: " ++ e)]
              ∧ (iteration p it).next = none)
      ∧ (∀ (p : Pending) (it : Iter) (e : Bytes),
          (iteration p it).branch = some Branch.interrupt → it.writeErr = some e →
            (iteration p it).events
                = [Event.log (lit "interrupt"), Event.write CloseMessage closeMessage (some e),
                   Event.log (lit "write close: " ++ e)]
              ∧ (iteration p it).next = none) := by
  refine ⟨?_, ?_, ?_, ?_⟩
  · intro env pre post mt d e h
    obtain ⟨hw, hs, hgo, hwait⟩ :=
      main_after_terminal env pre post mt d (some e) h (Or.inr (by simp))
    exact ⟨hw, hgo, hwait (by simp), hs⟩
  · intro env e hd ha
    simp [main, hd, ha]
  · intro p it e hb he
    rcases iteration_cases p it with ⟨hi, -⟩ | ⟨hi, -⟩ | ⟨hi, he', -⟩ | ⟨e', hi, he', -⟩
        | ⟨hi, -⟩ | ⟨e', hi, -⟩
    · rw [hi] at hb; simp at hb
    · rw [hi] at hb; simp at hb
    · rw [he] at he'; simp at he'
    · rw [he] at he'
      obtain rfl : e = e' := by simpa using he'
      rw [hi]; simp
    · rw [hi] at hb; simp at hb
    · rw [hi] at hb; simp at hb
  · intro p it e hb he
    rcases iteration_cases p it with ⟨hi, -⟩ | ⟨hi, -⟩ | ⟨hi, -⟩ | ⟨e', hi, -⟩
        | ⟨hi, he', -⟩ | ⟨e', hi, he', -⟩
    · rw [hi] at hb; simp at hb
    · rw [hi] at hb; simp at hb
    · rw [hi] at hb; simp at hb
    · rw [hi] at hb; simp at hb
    · rw [he] at he'; simp at he'
    · rw [he] at he'
      obtain rfl : e = e' := by simpa using he'
      rw [hi]; simp

end PingTest
